import Mathlib

/-!
Verification of the retryable batch-processing and content-chunking pipeline
of the scrape-ai repository.

Texts are modelled as lists of characters (`Str`); TypeScript string
concatenation and length map to list append and `List.length`.  Effectful
code (model calls, navigation) is modelled by threading an explicit trace
state and by oracles (deterministic functions standing for the external
collaborators).  Sleeps and the rate limiter's internal pacing have no
observable effect on any value computed here and are modelled as no-ops.
-/

/-- Texts are sequences of characters (UTF-16 code units in the source). -/
abbrev Str := List Char

/-- Whitespace test used by the sentence splitter: models the common ASCII
portion of the JavaScript regex class `\s` (space, tab, newline, carriage
return, vertical tab, form feed); non-ASCII whitespace is not modelled. -/
def isWs (c : Char) : Bool :=
  c = ' ' || c = '\t' || c = '\n' || c = '\r' || c = Char.ofNat 11 || c = Char.ofNat 12

/-- A text is blank when every character is whitespace: models the source's
`!text || text.trim().length === 0` check on generated model output. -/
def isBlank (t : Str) : Bool := t.all isWs

/-- Worker for `splitParas`: scans the text, emitting the accumulated segment
(held reversed in `acc`) each time a maximal run of two or more newlines is
met.  Models `content.split(/\n\n+/)` from `createContentChunks`. -/
def splitParasGo : Str → Str → List Str
  | [], acc => [acc.reverse]
  | c :: rest, acc =>
    if c = '\n' ∧ rest.head? = some '\n' then
      acc.reverse :: splitParasGo (rest.dropWhile (fun x => x = '\n')) []
    else
      splitParasGo rest (c :: acc)
termination_by s _ => s.length
decreasing_by
  · simp only [List.length_cons]
    exact Nat.lt_succ_of_le ((List.dropWhile_sublist _).length_le)
  · simp

/-- Splitting a text on runs of two or more newlines, as in the source's
`content.split(/\n\n+/)`.  Leading and trailing matches produce empty
segments, exactly as JavaScript `String.split` does. -/
def splitParas (s : Str) : List Str := splitParasGo s []

/-- There is a sentence boundary when the current character is `.`, `!` or
`?` and the next character is whitespace: models the lookbehind regex
`/(?<=[.!?])\s+/` used for sentence-level splitting. -/
def sentBoundary (c : Char) (next : Option Char) : Bool :=
  (c = '.' || c = '!' || c = '?') &&
    (match next with
     | some w => isWs w
     | none => false)

/-- Worker for `splitSents`: the terminator character stays with the segment
before the boundary and the whitespace run is consumed, as the regex
`/(?<=[.!?])\s+/` does in `String.split`. -/
def splitSentsGo : Str → Str → List Str
  | [], acc => [acc.reverse]
  | c :: rest, acc =>
    if sentBoundary c rest.head? then
      (c :: acc).reverse :: splitSentsGo (rest.dropWhile isWs) []
    else
      splitSentsGo rest (c :: acc)
termination_by s _ => s.length
decreasing_by
  · simp only [List.length_cons]
    exact Nat.lt_succ_of_le ((List.dropWhile_sublist _).length_le)
  · simp

/-- Splitting a chunk into sentences: models
`currentChunk.split(/(?<=[.!?])\s+/)` from `createContentChunks`. -/
def splitSents (s : Str) : List Str := splitSentsGo s []

/-- Source constant `CHARS_PER_TOKEN = 4`. -/
def CHARS_PER_TOKEN : Nat := 4

/-- Source constant `MAX_CHUNK_TOKENS = 8000`. -/
def MAX_CHUNK_TOKENS : Nat := 8000

/-- Source constant `MAX_CHUNK_CHARS = MAX_CHUNK_TOKENS * CHARS_PER_TOKEN`,
the chunker's fixed limit of 32000 characters. -/
def MAX_CHUNK_CHARS : Nat := MAX_CHUNK_TOKENS * CHARS_PER_TOKEN

/-- The `ContentChunk` record from `types.ts`:
`{content, index, total, startChar, endChar}`. -/
structure ContentChunk where
  content : Str
  index : Nat
  total : Nat
  startChar : Nat
  endChar : Nat
deriving DecidableEq

/-- The mutable accumulator shared by the paragraph and sentence loops of
`createContentChunks`: the chunks pushed so far, the running
`currentStartChar`, and the running `chunkIndex`. -/
structure SealState where
  chunks : List ContentChunk
  startChar : Nat
  idx : Nat
deriving DecidableEq

/-- Sealing the running chunk: models the `chunks.push({...})` statements of
`createContentChunks` together with the accompanying
`currentStartChar += ...` and `chunkIndex++` updates.  The `total` field is
0 here and is backfilled after the loop, as in the source. -/
def sealChunk (s : SealState) (content : Str) : SealState :=
  ⟨s.chunks ++ [⟨content, s.idx, 0, s.startChar, s.startChar + content.length⟩],
   s.startChar + content.length, s.idx + 1⟩

/-- One iteration of the inner sentence loop of `createContentChunks`: the
pair holds the shared accumulator and the running `sentenceChunk`.  Sentences
are rejoined with a single space, and the overflow test concatenates without
a separator, exactly as `(sentenceChunk + sentence).length` does. -/
def sentStep (st : SealState × Str) (sent : Str) : SealState × Str :=
  if MAX_CHUNK_CHARS < (st.2 ++ sent).length ∧ st.2 ≠ [] then
    (sealChunk st.1 st.2, sent)
  else
    (st.1, if st.2 = [] then sent else st.2 ++ ' ' :: sent)

/-- The `potentialChunk` of the paragraph loop: the running chunk and the
next paragraph rejoined with a double newline, or the paragraph alone when
the running chunk is empty. -/
def paraPotential (st : SealState × Str) (para : Str) : Str :=
  if st.2 = [] then para else st.2 ++ '\n' :: '\n' :: para

/-- First half of a paragraph-loop iteration: seal the running chunk when the
potential chunk would overflow and the running chunk is non-empty, otherwise
extend the running chunk to the potential chunk. -/
def paraSeal (st : SealState × Str) (para : Str) : SealState × Str :=
  if MAX_CHUNK_CHARS < (paraPotential st para).length ∧ st.2 ≠ [] then
    (sealChunk st.1 st.2, para)
  else
    (st.1, paraPotential st para)

/-- One iteration of the paragraph loop of `createContentChunks`: build the
potential chunk, seal the running chunk if the potential chunk would
overflow, then fall back to the sentence loop if the running chunk itself
exceeds the limit. -/
def paraStep (st : SealState × Str) (para : Str) : SealState × Str :=
  if MAX_CHUNK_CHARS < (paraSeal st para).2.length then
    (splitSents (paraSeal st para).2).foldl sentStep ((paraSeal st para).1, [])
  else
    paraSeal st para

/-- The paragraph loop of `createContentChunks` run over all paragraphs of
the text, from the empty initial state. -/
def chunkAccum (content : Str) : SealState × Str :=
  (splitParas content).foldl paraStep (⟨[], 0, 0⟩, [])

/-- The `if (currentChunk) chunks.push(...)` epilogue of the paragraph loop:
the remaining running chunk, when non-empty, is sealed after the loop. -/
def chunkFinal (content : Str) : SealState :=
  if (chunkAccum content).2 = [] then (chunkAccum content).1
  else sealChunk (chunkAccum content).1 (chunkAccum content).2

/-- The content chunker `createContentChunks` from `ai.ts`: a text at most
`MAX_CHUNK_CHARS` long becomes a single whole-text chunk; otherwise the text
is split on paragraph boundaries, greedily accumulated, sentence-split on
overflow, and the `total` field of every produced chunk is backfilled with
the final chunk count. -/
def createContentChunks (content : Str) : List ContentChunk :=
  if content.length ≤ MAX_CHUNK_CHARS then
    [⟨content, 0, 1, 0, content.length⟩]
  else
    (chunkFinal content).chunks.map
      (fun c => ⟨c.content, c.index, (chunkFinal content).chunks.length, c.startChar, c.endChar⟩)

/-- Geometry invariant of a produced chunk list: starting at offset `s` with
index `i`, each chunk starts where announced, ends `content.length` later,
carries the next dense index, and the list ends at offset `e` with next index
`j`.  The `total` field is not constrained here. -/
def chunksWF : Nat → Nat → List ContentChunk → Nat → Nat → Prop
  | s, i, [], e, j => e = s ∧ j = i
  | s, i, c :: cs, e, j =>
    c.startChar = s ∧ c.endChar = s + c.content.length ∧ c.index = i ∧
      chunksWF c.endChar (i + 1) cs e j

/-- The loop invariant carried through `createContentChunks`: the accumulated
chunks tile the offsets from 0 up to the running `startChar`, with dense
indices from 0 up to the running `idx`. -/
def SealInv (s : SealState) : Prop := chunksWF 0 0 s.chunks s.startChar s.idx

/-- First paragraph of the two-paragraph counterexample text: 16000 letters. -/
def c1CexA : Str := List.replicate 16000 'a'

/-- Second paragraph of the two-paragraph counterexample text: 16500 letters. -/
def c1CexB : Str := List.replicate 16500 'a'

/-- A 32502-character text of two paragraphs separated by a double newline:
long enough to take the multi-chunk path and to force a seal between the two
paragraphs, whereupon the separator is not counted in any chunk's span. -/
def c1CexText : Str := c1CexA ++ '\n' :: '\n' :: c1CexB

/-- A text made of newlines only, one character beyond the chunk limit. -/
def c10NlText : Str := List.replicate 32001 '\n'

/-- Backoff policy of the SDK retry configuration (`RetryConfig.backoff`). -/
inductive Backoff
  | exponential
  | linear
deriving DecidableEq

/-- Delay computed by `Scraper.withRetry` after failed attempt `i`
(0-indexed): `delay * Math.pow(2, i)` for exponential backoff and
`delay * (i + 1)` for linear backoff. -/
def backoffWait : Backoff → Nat → Nat → Nat
  | .exponential, delay, i => delay * 2 ^ i
  | .linear, delay, i => delay * (i + 1)

/-- The aggregate `EngineError` thrown by `Scraper.withRetry` after
exhaustion: its message names the attempt count and it carries the last
underlying error as `cause` (absent when zero attempts were configured). -/
structure EngineFailure (E : Type) where
  attempts : Nat
  cause : Option E
deriving DecidableEq

/-- Observable outcome of one `Scraper.withRetry` run: the returned value or
thrown aggregate error, the number of calls made to the wrapped operation,
and the backoff delays slept, in order. -/
structure RetryRun (E A : Type) where
  result : Except (EngineFailure E) A
  calls : Nat
  delays : List Nat

/-- The retry loop of `Scraper.withRetry` from `sdk.ts`: `i` is the current
attempt index, `r + 1` the attempts remaining, and `fn i` the outcome of the
i-th call of the wrapped operation.  A failure with further attempts left
(`i < attempts - 1` in the source) sleeps `backoffWait` and continues; the
final failure, or an empty attempt budget, raises the aggregate error with
the last underlying cause. -/
def withRetryGo {E A : Type} (fn : Nat → Except E A) (delay : Nat) (b : Backoff)
    (attemptsTotal : Nat) : Nat → Nat → Option E → RetryRun E A
  | _, 0, last => ⟨.error ⟨attemptsTotal, last⟩, 0, []⟩
  | i, r + 1, _ =>
    match fn i with
    | .ok a => ⟨.ok a, 1, []⟩
    | .error e =>
      if r = 0 then ⟨.error ⟨attemptsTotal, some e⟩, 1, []⟩
      else
        let rest := withRetryGo fn delay b attemptsTotal (i + 1) r (some e)
        ⟨rest.result, rest.calls + 1, backoffWait b delay i :: rest.delays⟩

/-- `Scraper.withRetry(fn, {attempts, delay, backoff})` from `sdk.ts`:
calls the operation up to `attempts` times, sleeping a backoff delay between
consecutive attempts, and throws `EngineError` carrying the last cause after
exhaustion. -/
def withRetry {E A : Type} (fn : Nat → Except E A) (attempts delay : Nat)
    (b : Backoff) : RetryRun E A :=
  withRetryGo fn delay b attempts 0 attempts none

/-- The `SummaryOptions` fields that influence the modelled control flow of
the agent script: retry budget, retry base delay, and the comparative flag.
The remaining fields (length, format, metadata, save, batch, follow, plugin
options) only influence prompt wording and output formatting, on which no
value modelled here depends. -/
structure SummaryOptions where
  maxRetries : Option Nat
  retryDelay : Option Nat
  comparative : Bool
deriving DecidableEq

/-- The effective retry budget `options.maxRetries || 3` used throughout
`ai.ts` and `index.ts`: JavaScript `||` treats both `undefined` and `0` as
absent, so an explicit 0 falls back to the default 3. -/
def effectiveMaxRetries (o : SummaryOptions) : Nat :=
  match o.maxRetries with
  | none => 3
  | some 0 => 3
  | some (n + 1) => n + 1

/-- The `SummarizerError` class from `types.ts`: a message, a stable error
code, and a `retryable` classification flag. -/
structure SummErr where
  message : String
  code : String
  retryable : Bool
deriving DecidableEq

/-- Failure of a whole `retryWithBackoff` run: either a non-retryable error
propagated unchanged on first failure, or exhaustion carrying the last
underlying cause (`none` only for an empty attempt budget). -/
inductive RetryErr
  | fatal (e : SummErr)
  | exhausted (last : Option SummErr)
deriving DecidableEq

/-- Result of a `retryWithBackoff` run over state `σ`: the outcome, the
state after the run (the trace of calls made), and the number of attempts. -/
structure RetryResult (A σ : Type) where
  res : Except RetryErr A
  st : σ
  attempts : Nat

/-- Modelled from the spec: `retryWithBackoff` from `utils.ts` is absent
from the sources (only its callers and the `SummarizerError` declaration
are present).  Following section 4.1 of the specification: attempt the
operation; a failure classified non-retryable propagates immediately without
further attempts; otherwise, while attempts remain, sleep a backoff delay
(not observable here) and retry; after exhausting the attempt budget, fail
with an aggregate error carrying the last underlying cause.  The budget
counts total attempts, as in the specification's testable property
"maxRetries=k calls the operation at most k times". -/
def retryWithBackoffSt {A σ : Type} (op : σ → Except SummErr A × σ) :
    Nat → Option SummErr → σ → RetryResult A σ
  | 0, last, st => ⟨.error (.exhausted last), st, 0⟩
  | k + 1, _, st =>
    match op st with
    | (.ok a, st1) => ⟨.ok a, st1, 1⟩
    | (.error e, st1) =>
      if e.retryable then
        let rest := retryWithBackoffSt op k (some e) st1
        ⟨rest.res, rest.st, rest.attempts + 1⟩
      else ⟨.error (.fatal e), st1, 1⟩

/-- A `retryWithBackoff` run started with no previous error recorded. -/
def retryWithBackoffM {A σ : Type} (op : σ → Except SummErr A × σ)
    (maxRetries : Nat) (st : σ) : RetryResult A σ :=
  retryWithBackoffSt op maxRetries none st

/-- One model call issued by the summarizer, tagged by call site and carrying
the argument from which the prompt is built: a whole-text direct
summarization (`buildPrompt`), a chunk summarization (`buildChunkPrompt`),
or a synthesis over the collected chunk summaries (`buildSynthesisPrompt`). -/
inductive AICall
  | direct (content : Str)
  | chunkCall (c : ContentChunk)
  | synthesis (chunkSummaries : List Str)
deriving DecidableEq

/-- The trace of model calls issued so far, in order. -/
structure AIState where
  calls : List AICall
deriving DecidableEq

def pushCall (st : AIState) (c : AICall) : AIState := ⟨st.calls ++ [c]⟩

def pushCalls (st : AIState) (l : List AICall) : AIState := ⟨st.calls ++ l⟩

/-- The model oracle: the text `generateText` returns for a call, or the
error its promise rejects with.  The language-model collaborator is out of
scope and modelled as a deterministic function of the call. -/
abbrev GenOracle := AICall → Except SummErr Str

/-- The empty-output guard shared by every call site in `ai.ts`: a rejected
generation propagates its error, and blank output raises the retryable
`EMPTY_SUMMARY` `SummarizerError`.  The per-site message wording (which
interpolates the chunk number at the chunk site) is collapsed to one
constant, as no modelled value depends on it. -/
def genOutcome (gen : GenOracle) (c : AICall) : Except SummErr Str :=
  match gen c with
  | .error e => .error e
  | .ok t =>
    if isBlank t then .error ⟨"AI model returned empty response", "EMPTY_SUMMARY", true⟩
    else .ok t

/-- One attempt of a summarizer operation: issue the call, record it in the
trace, and apply the empty-output guard. -/
def genAttempt (gen : GenOracle) (c : AICall) (st : AIState) :
    Except SummErr Str × AIState :=
  (genOutcome gen c, pushCall st c)

/-- `summarizeChunk` from `ai.ts`: the chunk-scoped model call wrapped in
`retryWithBackoff` with the effective retry budget.  The enclosing
`rateLimiter.execute` only paces the call and is modelled as a no-op. -/
def summarizeChunkSt (gen : GenOracle) (opts : SummaryOptions)
    (c : ContentChunk) (st : AIState) : RetryResult Str AIState :=
  retryWithBackoffM (genAttempt gen (.chunkCall c)) (effectiveMaxRetries opts) st

/-- `synthesizeChunkSummaries` from `ai.ts`: the synthesis model call over
the collected chunk summaries, wrapped in `retryWithBackoff`. -/
def synthesizeChunkSummariesSt (gen : GenOracle) (opts : SummaryOptions)
    (ss : List Str) (st : AIState) : RetryResult Str AIState :=
  retryWithBackoffM (genAttempt gen (.synthesis ss)) (effectiveMaxRetries opts) st

/-- The sequential per-chunk loop of `summarizeContent`: each chunk is
summarized in order and a failure aborts the whole loop at once (an awaited
rejection propagates out of the `for` loop in the source). -/
def chunkLoopSt (gen : GenOracle) (opts : SummaryOptions) :
    List ContentChunk → AIState → Except RetryErr (List Str) × AIState
  | [], st => (.ok [], st)
  | c :: cs, st =>
    match summarizeChunkSt gen opts c st with
    | ⟨.error e, st1, _⟩ => (.error e, st1)
    | ⟨.ok s, st1, _⟩ =>
      match chunkLoopSt gen opts cs st1 with
      | (.error e, st2) => (.error e, st2)
      | (.ok ss, st2) => (.ok (s :: ss), st2)

/-- `summarizeContent` from `ai.ts`: chunk the content; exactly one chunk
takes the direct path (one `buildPrompt` call under retry); otherwise run
the sequential per-chunk loop and then the single synthesis call. -/
def summarizeContentSt (gen : GenOracle) (content : Str) (opts : SummaryOptions)
    (st : AIState) : Except RetryErr Str × AIState :=
  if (createContentChunks content).length = 1 then
    match retryWithBackoffM (genAttempt gen (.direct content)) (effectiveMaxRetries opts) st with
    | ⟨r, st1, _⟩ => (r, st1)
  else
    match chunkLoopSt gen opts (createContentChunks content) st with
    | (.error e, st1) => (.error e, st1)
    | (.ok ss, st1) =>
      match synthesizeChunkSummariesSt gen opts ss st1 with
      | ⟨r, st2, _⟩ => (r, st2)

/-- Outcome of one summarizer operation under retry with a deterministic
oracle: first-attempt success succeeds, a non-retryable failure is fatal,
and a retryable failure repeats identically until exhaustion. -/
def oneCallResult (gen : GenOracle) (c : AICall) : Except RetryErr Str :=
  match genOutcome gen c with
  | .ok t => .ok t
  | .error e =>
    if e.retryable then .error (.exhausted (some e)) else .error (.fatal e)

/-- Number of attempts such an operation makes under budget `k ≥ 1`. -/
def oneCallReps (gen : GenOracle) (c : AICall) (k : Nat) : Nat :=
  match genOutcome gen c with
  | .ok _ => 1
  | .error e => if e.retryable then k else 1

/-- The calls the per-chunk loop issues: one block per chunk in list order,
stopping after the first chunk whose summarization fails. -/
def loopTrace (gen : GenOracle) (opts : SummaryOptions) :
    List ContentChunk → List AICall
  | [] => []
  | c :: cs =>
    List.replicate (oneCallReps gen (.chunkCall c) (effectiveMaxRetries opts)) (.chunkCall c) ++
      (match oneCallResult gen (.chunkCall c) with
       | .error _ => []
       | .ok _ => loopTrace gen opts cs)

/-- The outcome of the per-chunk loop: the chunk summaries in order, or the
first failure. -/
def loopResult (gen : GenOracle) : List ContentChunk → Except RetryErr (List Str)
  | [] => .ok []
  | c :: cs =>
    match oneCallResult gen (.chunkCall c) with
    | .error e => .error e
    | .ok s =>
      match loopResult gen cs with
      | .error e => .error e
      | .ok ss => .ok (s :: ss)

/-- The chunk indices of the chunk-scoped calls of a trace, in order. -/
def chunkIdxList (tr : List AICall) : List Nat :=
  tr.filterMap (fun x =>
    match x with
    | .chunkCall c => some c.index
    | _ => none)

/-- Generic outcome of one retried operation whose attempts all behave the
same (the oracles here are deterministic): first-attempt success succeeds, a
non-retryable failure is fatal, a retryable failure exhausts the budget. -/
def constRes {A : Type} : Except SummErr A → Except RetryErr A
  | .ok a => .ok a
  | .error e => if e.retryable then .error (.exhausted (some e)) else .error (.fatal e)

/-- Number of attempts such an operation makes under budget `k ≥ 1`. -/
def constReps {A : Type} : Except SummErr A → Nat → Nat
  | .ok _, _ => 1
  | .error e, k => if e.retryable then k else 1

/-- The `PageMetadata` record from `types.ts`. -/
structure PageMetadata where
  title : Str
  description : Str
  url : Str
  timestamp : Str
deriving DecidableEq

/-- The `BatchResult` record from `types.ts`: exactly one of `summary` and
`error` is meaningful for a terminal result; `retries` is present only when
a retry occurred.  The optional plugin fields (`analysis`, `tags`) attached
by the orchestrator's success literal are not modelled: the plugin
post-processors are out-of-scope collaborators and no claim refers to them. -/
structure BatchResult where
  url : Str
  summary : Str
  metadata : PageMetadata
  error : Option String
  retries : Option Nat
deriving DecidableEq

/-- Character-wise test that the first list starts the second. -/
def strStarts : Str → Str → Bool
  | [], _ => true
  | _ :: _, [] => false
  | p :: ps, c :: cs => p = c && strStarts ps cs

/-- Modelled from the spec: `isValidUrl` from `utils.ts` is absent from the
sources.  Following section 4.5 of the specification, a URL is well-formed
when it parses as `http(s)://...`: an http or https scheme prefix followed
by at least one character. -/
def isValidUrl (u : Str) : Bool :=
  (strStarts ("http://".data) u && decide (("http://".data).length < u.length)) ||
    (strStarts ("https://".data) u && decide (("https://".data).length < u.length))

/-- Events observable at the batch-orchestrator boundary: a navigation of
the browser collaborator to a URL (the start of one `processUrl` attempt)
and a comparative-summary model call over a list of results. -/
inductive BatchEv
  | nav (url : Str)
  | comp (args : List BatchResult)
deriving DecidableEq

/-- The data one successful per-URL attempt produces: the extracted page's
summary and metadata.  The navigate → extract → summarize → plugin chain is
driven by out-of-scope collaborators and is modelled as a deterministic
per-URL oracle. -/
structure UrlData where
  summary : Str
  metadata : PageMetadata
deriving DecidableEq

/-- The per-URL environment oracle: what one attempt of the
navigate/extract/summarize chain yields for a URL. -/
abbrev UrlOracle := Str → Except SummErr UrlData

/-- The comparative-summary oracle: what the model call inside
`generateComparativeSummary` yields for a list of successful results. -/
abbrev CompOracle := List BatchResult → Except SummErr Str

/-- One attempt of `processUrl`'s retried body: a navigation event is
recorded and the per-URL oracle decides the outcome. -/
def urlAttempt (env : UrlOracle) (u : Str) (tr : List BatchEv) :
    Except SummErr UrlData × List BatchEv :=
  (env u, tr ++ [.nav u])

/-- The metadata of an error-tagged result:
`{title: '', description: '', url, timestamp: new Date().toISOString()}`.
The wall-clock timestamp is modelled as an unspecified constant. -/
def emptyMeta (u : Str) : PageMetadata := ⟨[], [], u, []⟩

/-- The message of the error a failed retry run reports: the propagated
non-retryable error's own message, or the aggregate message after
exhaustion.  Only its presence matters to any claim. -/
def retryErrMessage : RetryErr → String
  | .fatal e => e.message
  | .exhausted _ => "operation failed after retries"

/-- `processUrl` from `index.ts`: the whole per-URL chain under
`retryWithBackoff`, with `.catch` converting the final rejection into an
error-tagged `BatchResult`; `retries` counts the failed attempts and is
recorded only when a retry occurred. -/
def processUrlSt (env : UrlOracle) (opts : SummaryOptions) (u : Str)
    (tr : List BatchEv) : BatchResult × List BatchEv :=
  match retryWithBackoffM (urlAttempt env u) (effectiveMaxRetries opts) tr with
  | ⟨.ok d, tr1, _⟩ => (⟨u, d.summary, d.metadata, none, none⟩, tr1)
  | ⟨.error e, tr1, n⟩ =>
    (⟨u, [], emptyMeta u, some (retryErrMessage e),
      if n = 0 then none else some n⟩, tr1)

/-- The error-tagged result `summarizeBatch` records for a syntactically
invalid URL, without touching the browser collaborator. -/
def invalidUrlResult (u : Str) : BatchResult :=
  ⟨u, [], emptyMeta u, some "Invalid URL format", none⟩

/-- The per-URL loop of `summarizeBatch` from `index.ts`: one result per URL
in input order; invalid URLs short-circuit to an error-tagged result, valid
ones run `processUrl` (whose own `.catch` makes it total, so the enclosing
defensive `try`/`catch` never fires).  The `BATCH_DELAY` sleep and the
periodic browser-page recycling mutate no value modelled here. -/
def batchLoop (env : UrlOracle) (opts : SummaryOptions) :
    List Str → List BatchEv → List BatchResult × List BatchEv
  | [], tr => ([], tr)
  | u :: us, tr =>
    if isValidUrl u then
      match processUrlSt env opts u tr with
      | (r, tr1) =>
        match batchLoop env opts us tr1 with
        | (rs, tr2) => (r :: rs, tr2)
    else
      match batchLoop env opts us tr with
      | (rs, tr1) => (invalidUrlResult u :: rs, tr1)

/-- The guarded outcome of one comparative model call: a rejected generation
propagates and blank output raises the retryable `EMPTY_SUMMARY` error, as
in `generateComparativeSummary`. -/
def compOutcome (compEnv : CompOracle) (args : List BatchResult) :
    Except SummErr Str :=
  match compEnv args with
  | .error e => .error e
  | .ok t =>
    if isBlank t then
      .error ⟨"AI model returned empty comparative summary", "EMPTY_SUMMARY", true⟩
    else .ok t

/-- One attempt of `generateComparativeSummary`'s retried body: a
comparative call event is recorded and the oracle's output passes the
empty-output guard. -/
def compAttempt (compEnv : CompOracle) (args : List BatchResult)
    (tr : List BatchEv) : Except SummErr Str × List BatchEv :=
  (compOutcome compEnv args, tr ++ [.comp args])

/-- The output of one batch run: the per-URL results in input order, the
optional comparative summary, and the event trace. -/
structure BatchOut where
  results : List BatchResult
  comparative : Option Str
  trace : List BatchEv

/-- `summarizeBatch` from `index.ts`: run the per-URL loop; then, when the
run requested comparative analysis and at least two results are error-free,
issue `generateComparativeSummary` over exactly the error-free results, a
failure of which is caught and logged — the per-URL results are returned
either way.  The source's truthiness test `!r.error` is modelled by
`Option.isNone`: every error message this model records is a non-empty
string, so presence coincides with truthiness. -/
def summarizeBatchSt (env : UrlOracle) (compEnv : CompOracle)
    (opts : SummaryOptions) (urls : List Str) : BatchOut :=
  match batchLoop env opts urls [] with
  | (results, tr) =>
    if opts.comparative ∧ 2 ≤ (results.filter (fun r => r.error.isNone)).length then
      match retryWithBackoffM
          (compAttempt compEnv (results.filter (fun r => r.error.isNone)))
          (effectiveMaxRetries opts) tr with
      | ⟨.ok s, tr1, _⟩ => ⟨results, some s, tr1⟩
      | ⟨.error _, tr1, _⟩ => ⟨results, none, tr1⟩
    else ⟨results, none, tr⟩

/-- The result `summarizeBatch` produces for one URL, as a function of that
URL alone: the oracles are deterministic, so one URL's outcome is
independent of the other batch entries. -/
def resultFor (env : UrlOracle) (opts : SummaryOptions) (u : Str) : BatchResult :=
  if isValidUrl u then (processUrlSt env opts u []).1 else invalidUrlResult u

/-- Number of attempts `processUrl` makes for one URL. -/
def urlReps (env : UrlOracle) (opts : SummaryOptions) (u : Str) : Nat :=
  constReps (env u) (effectiveMaxRetries opts)

/-- The navigation events one batch entry contributes to the trace: none at
all for an invalid URL. -/
def navTraceFor (env : UrlOracle) (opts : SummaryOptions) (u : Str) : List BatchEv :=
  if isValidUrl u then List.replicate (urlReps env opts u) (.nav u) else []

/-- Modelled from the spec: the `RateLimiter` class from `utils.ts` is
absent from the sources (only its construction `new RateLimiter(2, 1000)`
appears in `ai.ts`).  Following section 4.2 of the specification, for
operations all submitted at time 0 the limiter releases them in FIFO batches
of `maxRequests` per `windowMs` window, so the i-th operation (0-indexed)
begins at `(i / maxRequests) * windowMs` milliseconds. -/
def rateLimiterStart (maxRequests windowMs i : Nat) : Nat :=
  (i / maxRequests) * windowMs

theorem chunksWF_append {s i m k e j : Nat} {xs ys : List ContentChunk}
    (hx : chunksWF s i xs m k) (hy : chunksWF m k ys e j) :
    chunksWF s i (xs ++ ys) e j := by
  induction xs generalizing s i with
  | nil =>
    obtain ⟨rfl, rfl⟩ := hx
    simpa using hy
  | cons c cs ih =>
    obtain ⟨h1, h2, h3, h4⟩ := hx
    exact ⟨h1, h2, h3, ih h4⟩

theorem sealChunk_inv {s : SealState} (h : SealInv s) (t : Str) :
    SealInv (sealChunk s t) := by
  refine chunksWF_append h ?_
  exact ⟨rfl, rfl, rfl, rfl, rfl⟩

theorem sentStep_inv {st : SealState × Str} (h : SealInv st.1) (x : Str) :
    SealInv (sentStep st x).1 := by
  unfold sentStep
  split
  · exact sealChunk_inv h _
  · exact h

theorem foldl_sentStep_inv {st : SealState × Str} (h : SealInv st.1)
    (l : List Str) : SealInv (l.foldl sentStep st).1 := by
  induction l generalizing st with
  | nil => exact h
  | cons x xs ih => exact ih (sentStep_inv h x)

theorem paraSeal_inv {st : SealState × Str} (h : SealInv st.1) (p : Str) :
    SealInv (paraSeal st p).1 := by
  unfold paraSeal
  split
  · exact sealChunk_inv h _
  · exact h

theorem paraStep_inv {st : SealState × Str} (h : SealInv st.1) (p : Str) :
    SealInv (paraStep st p).1 := by
  unfold paraStep
  split
  · apply foldl_sentStep_inv
    exact paraSeal_inv h p
  · exact paraSeal_inv h p

theorem foldl_paraStep_inv {st : SealState × Str} (h : SealInv st.1)
    (l : List Str) : SealInv (l.foldl paraStep st).1 := by
  induction l generalizing st with
  | nil => exact h
  | cons x xs ih => exact ih (paraStep_inv h x)

theorem chunksWF_setTotal {s i e j n : Nat} {cs : List ContentChunk}
    (h : chunksWF s i cs e j) :
    chunksWF s i
      (cs.map (fun c => ⟨c.content, c.index, n, c.startChar, c.endChar⟩)) e j := by
  induction cs generalizing s i with
  | nil => exact h
  | cons c cs ih =>
    obtain ⟨h1, h2, h3, h4⟩ := h
    exact ⟨h1, h2, h3, ih h4⟩

theorem chunksWF_idx_len {s i e j : Nat} {cs : List ContentChunk}
    (h : chunksWF s i cs e j) : j = i + cs.length := by
  induction cs generalizing s i with
  | nil => simpa using h.2
  | cons c cs ih =>
    have := ih h.2.2.2
    simp only [List.length_cons]
    omega

theorem chunksWF_index {s i e j : Nat} {cs : List ContentChunk}
    (h : chunksWF s i cs e j) :
    ∀ t (ht : t < cs.length), (cs.get ⟨t, ht⟩).index = i + t := by
  induction cs generalizing s i with
  | nil => intro t ht; simp at ht
  | cons c cs ih =>
    intro t ht
    cases t with
    | zero => simpa using h.2.2.1
    | succ t =>
      have ht' : t < cs.length := Nat.lt_of_succ_lt_succ ht
      have ih2 := ih h.2.2.2 t ht'
      show (cs.get ⟨t, ht'⟩).index = i + (t + 1)
      rw [ih2]
      omega

theorem chunksWF_start0 {s i e j : Nat} {cs : List ContentChunk}
    (h : chunksWF s i cs e j) :
    ∀ h0 : 0 < cs.length, (cs.get ⟨0, h0⟩).startChar = s := by
  cases cs with
  | nil => intro h0; simp at h0
  | cons c cs => intro _; simpa using h.1

theorem chunksWF_adjacent {s i e j : Nat} {cs : List ContentChunk}
    (h : chunksWF s i cs e j) :
    ∀ t (ht : t + 1 < cs.length),
      (cs.get ⟨t, Nat.lt_of_succ_lt ht⟩).endChar = (cs.get ⟨t + 1, ht⟩).startChar := by
  induction cs generalizing s i with
  | nil => intro t ht; simp at ht
  | cons c cs ih =>
    intro t ht
    cases t with
    | zero =>
      cases cs with
      | nil => simp at ht
      | cons d ds => simpa using h.2.2.2.1.symm
    | succ t =>
      have := ih h.2.2.2 t (by simpa using ht)
      simpa using this

theorem chunksWF_sum {s i e j : Nat} {cs : List ContentChunk}
    (h : chunksWF s i cs e j) :
    e = s + (cs.map (fun c => c.content.length)).sum := by
  induction cs generalizing s i with
  | nil => simpa using h.1
  | cons c cs ih =>
    have h2 := h.2.1
    have := ih h.2.2.2
    simp only [List.map_cons, List.sum_cons]
    omega

theorem chunksWF_last {s i e j : Nat} {cs : List ContentChunk}
    (h : chunksWF s i cs e j) (hne : cs ≠ []) :
    (cs.getLast hne).endChar = e := by
  induction cs generalizing s i with
  | nil => exact absurd rfl hne
  | cons c cs ih =>
    cases cs with
    | nil =>
      obtain ⟨_, h2, _, h4, _⟩ := h
      simp only [List.getLast_singleton]
      omega
    | cons d ds =>
      have := ih h.2.2.2 (by simp)
      simpa [List.getLast_cons] using this

/-- On a short text the chunker takes the single-chunk fast path. -/
theorem createContentChunks_short {content : Str}
    (h : content.length ≤ MAX_CHUNK_CHARS) :
    createContentChunks content = [⟨content, 0, 1, 0, content.length⟩] := by
  unfold createContentChunks
  rw [if_pos h]

/-- On a long text the chunker maps the total backfill over the final
accumulator state. -/
theorem createContentChunks_long {content : Str}
    (h : ¬ content.length ≤ MAX_CHUNK_CHARS) :
    createContentChunks content =
      (chunkFinal content).chunks.map
        (fun c => ⟨c.content, c.index, (chunkFinal content).chunks.length,
          c.startChar, c.endChar⟩) := by
  unfold createContentChunks
  rw [if_neg h]

theorem chunkFinal_inv (content : Str) : SealInv (chunkFinal content) := by
  have hinv0 : SealInv ⟨[], 0, 0⟩ := ⟨rfl, rfl⟩
  have hp : SealInv (chunkAccum content).1 := foldl_paraStep_inv hinv0 _
  unfold chunkFinal
  split
  · exact hp
  · exact sealChunk_inv hp _

/-- The chunker always produces a geometrically well-formed list: offsets
tile from 0 to the sum of the chunk contents' lengths, indices are dense
from 0. -/
theorem createContentChunks_wf (content : Str) :
    chunksWF 0 0 (createContentChunks content)
      (((createContentChunks content).map (fun c => c.content.length)).sum)
      (createContentChunks content).length := by
  by_cases h : content.length ≤ MAX_CHUNK_CHARS
  · rw [createContentChunks_short h]
    simp [chunksWF]
  · have hwf : chunksWF 0 0
        ((chunkFinal content).chunks.map
          (fun c => ⟨c.content, c.index, (chunkFinal content).chunks.length,
            c.startChar, c.endChar⟩))
        (chunkFinal content).startChar (chunkFinal content).idx :=
      chunksWF_setTotal (chunkFinal_inv content)
    rw [createContentChunks_long h]
    have hsum := chunksWF_sum hwf
    have hlen := chunksWF_idx_len hwf
    simp only [Nat.zero_add] at hsum hlen
    rw [← hsum, ← hlen]
    exact hwf

/-- Every chunk's `total` field equals the number of produced chunks. -/
theorem createContentChunks_total (content : Str) :
    ∀ c ∈ createContentChunks content, c.total = (createContentChunks content).length := by
  by_cases h : content.length ≤ MAX_CHUNK_CHARS
  · rw [createContentChunks_short h]
    intro c hc
    simpa using congrArg ContentChunk.total (List.mem_singleton.mp hc)
  · rw [createContentChunks_long h]
    intro c hc
    simp only [List.mem_map] at hc
    obtain ⟨d, _, rfl⟩ := hc
    simp

/-- C2: for every text of length at most `MAX_CHUNK_CHARS` (32000),
`createContentChunks` returns exactly one chunk whose content is the whole
text, with index 0, total 1, startChar 0 and endChar the text length. -/
theorem c2_single_chunk (content : Str) (h : content.length ≤ MAX_CHUNK_CHARS) :
    createContentChunks content = [⟨content, 0, 1, 0, content.length⟩] :=
  createContentChunks_short h

/-- Witness for C2 at the concrete two-character text `hi`. -/
theorem c2_single_chunk_witness :
    List.length ['h', 'i'] ≤ MAX_CHUNK_CHARS ∧
      createContentChunks ['h', 'i'] = [⟨['h', 'i'], 0, 1, 0, 2⟩] :=
  ⟨by decide, by simpa using c2_single_chunk ['h', 'i'] (by decide)⟩

theorem splitParasGo_no_nl {s : Str} (hs : ∀ c ∈ s, c ≠ '\n') :
    ∀ acc, splitParasGo s acc = [acc.reverse ++ s] := by
  induction s with
  | nil => intro acc; simp [splitParasGo]
  | cons c rest ih =>
    intro acc
    have hc : ¬ (c = '\n' ∧ rest.head? = some '\n') := by
      intro hand
      exact hs c (by simp) hand.1
    rw [splitParasGo, if_neg hc, ih (fun x hx => hs x (by simp [hx]))]
    simp

theorem dropWhile_no_nl {s : Str} (hs : ∀ c ∈ s, c ≠ '\n') :
    s.dropWhile (fun x => x = '\n') = s := by
  cases s with
  | nil => rfl
  | cons c rest =>
    rw [List.dropWhile_cons_of_neg]
    simp only [decide_eq_true_eq]
    exact hs c (by simp)

theorem splitParasGo_two_paras {A B : Str} (hA : ∀ c ∈ A, c ≠ '\n')
    (hB : ∀ c ∈ B, c ≠ '\n') :
    ∀ acc, splitParasGo (A ++ '\n' :: '\n' :: B) acc = [acc.reverse ++ A, B] := by
  induction A with
  | nil =>
    intro acc
    rw [List.nil_append, splitParasGo, if_pos (by simp)]
    rw [List.dropWhile_cons_of_pos (by simp), dropWhile_no_nl hB]
    rw [splitParasGo_no_nl hB]
    simp
  | cons a A ih =>
    intro acc
    have ha : a ≠ '\n' := hA a (by simp)
    rw [List.cons_append, splitParasGo, if_neg (by intro hand; exact ha hand.1)]
    rw [ih (fun x hx => hA x (by simp [hx]))]
    simp

theorem no_nl_replicate {n : Nat} : ∀ c ∈ List.replicate n 'a', c ≠ '\n' := by
  intro c hc
  rw [List.eq_of_mem_replicate hc]
  decide

theorem no_nl_c1CexA : ∀ c ∈ c1CexA, c ≠ '\n' := by
  unfold c1CexA
  exact no_nl_replicate

theorem no_nl_c1CexB : ∀ c ∈ c1CexB, c ≠ '\n' := by
  unfold c1CexB
  exact no_nl_replicate

theorem splitParas_c1Cex : splitParas c1CexText = [c1CexA, c1CexB] := by
  unfold splitParas c1CexText
  rw [splitParasGo_two_paras no_nl_c1CexA no_nl_c1CexB]
  rfl

theorem c1CexA_len : c1CexA.length = 16000 := by
  rw [c1CexA, List.length_replicate]

theorem c1CexB_len : c1CexB.length = 16500 := by
  rw [c1CexB, List.length_replicate]

theorem c1CexA_ne_nil : c1CexA ≠ [] := by
  intro h
  have hl := congrArg List.length h
  rw [c1CexA_len] at hl
  exact absurd hl (by decide)

theorem c1CexB_ne_nil : c1CexB ≠ [] := by
  intro h
  have hl := congrArg List.length h
  rw [c1CexB_len] at hl
  exact absurd hl (by decide)

theorem c1CexText_len : c1CexText.length = 32502 := by
  rw [c1CexText, List.length_append, c1CexA_len]
  simp only [List.length_cons, c1CexB_len]

theorem chunkAccum_c1Cex :
    chunkAccum c1CexText = (⟨[⟨c1CexA, 0, 0, 0, 16000⟩], 16000, 1⟩, c1CexB) := by
  unfold chunkAccum
  rw [splitParas_c1Cex]
  have step1 : paraStep (⟨[], 0, 0⟩, ([] : Str)) c1CexA = (⟨[], 0, 0⟩, c1CexA) := by
    simp [paraStep, paraSeal, paraPotential, c1CexA_len,
      MAX_CHUNK_CHARS, MAX_CHUNK_TOKENS, CHARS_PER_TOKEN]
  have step2 : paraStep (⟨[], 0, 0⟩, c1CexA) c1CexB =
      (⟨[⟨c1CexA, 0, 0, 0, 16000⟩], 16000, 1⟩, c1CexB) := by
    simp [paraStep, paraSeal, paraPotential, sealChunk, c1CexA_len, c1CexB_len,
      c1CexA_ne_nil, MAX_CHUNK_CHARS, MAX_CHUNK_TOKENS, CHARS_PER_TOKEN]
  rw [List.foldl_cons, step1, List.foldl_cons, step2, List.foldl_nil]

theorem c1Cex_chunks :
    createContentChunks c1CexText =
      [⟨c1CexA, 0, 2, 0, 16000⟩, ⟨c1CexB, 1, 2, 16000, 32500⟩] := by
  rw [createContentChunks_long (by
    rw [c1CexText_len]
    norm_num [MAX_CHUNK_CHARS, MAX_CHUNK_TOKENS, CHARS_PER_TOKEN])]
  have hfin : chunkFinal c1CexText =
      ⟨[⟨c1CexA, 0, 0, 0, 16000⟩, ⟨c1CexB, 1, 0, 16000, 32500⟩], 32500, 2⟩ := by
    simp [chunkFinal, chunkAccum_c1Cex, sealChunk, c1CexB_ne_nil, c1CexB_len]
  rw [hfin]
  rfl

/-- C1 counterexample: on the concrete 32502-character two-paragraph text
the last chunk's `endChar` is 32500, not the text length 32502 — the
paragraph separator consumed by the split is counted in no chunk. -/
theorem c1_last_endChar_counterexample :
    ((createContentChunks c1CexText).map ContentChunk.endChar).getLast? = some 32500 ∧
    c1CexText.length = 32502 ∧
    ((createContentChunks c1CexText).map ContentChunk.endChar).getLast? ≠
      some c1CexText.length := by
  rw [c1Cex_chunks, c1CexText_len]
  refine ⟨rfl, rfl, ?_⟩
  intro h
  simp at h

/-- C1 (amended): for every text, adjacent chunks are contiguous
(`endChar` of chunk `t` equals `startChar` of chunk `t+1`), the first chunk
starts at 0, every chunk's `total` equals the number of chunks, and `index`
is 0-based and dense; the last chunk's `endChar` equals the sum of the chunk
contents' lengths, which on the multi-chunk path can fall short of the text
length because paragraph and sentence separators are dropped or collapsed. -/
theorem c1_chunk_invariants (content : Str) :
    (∀ t (ht : t + 1 < (createContentChunks content).length),
      ((createContentChunks content).get ⟨t, Nat.lt_of_succ_lt ht⟩).endChar =
        ((createContentChunks content).get ⟨t + 1, ht⟩).startChar) ∧
    (∀ h0 : 0 < (createContentChunks content).length,
      ((createContentChunks content).get ⟨0, h0⟩).startChar = 0) ∧
    (∀ c ∈ createContentChunks content, c.total = (createContentChunks content).length) ∧
    (∀ t (ht : t < (createContentChunks content).length),
      ((createContentChunks content).get ⟨t, ht⟩).index = t) ∧
    (∀ hne : createContentChunks content ≠ [],
      ((createContentChunks content).getLast hne).endChar =
        ((createContentChunks content).map (fun c => c.content.length)).sum) := by
  have hwf := createContentChunks_wf content
  refine ⟨chunksWF_adjacent hwf, chunksWF_start0 hwf, createContentChunks_total content,
    ?_, fun hne => chunksWF_last hwf hne⟩
  intro t ht
  simpa using chunksWF_index hwf t ht

/-- Witness for the amended C1 at the concrete two-paragraph text: two
chunks, contiguous at offset 16000, first start 0, totals equal to the chunk
count, dense indices. -/
theorem c1_chunk_invariants_witness :
    ((createContentChunks c1CexText).get ⟨0, by rw [c1Cex_chunks]; decide⟩).endChar =
      ((createContentChunks c1CexText).get ⟨1, by rw [c1Cex_chunks]; decide⟩).startChar ∧
    ((createContentChunks c1CexText).get ⟨0, by rw [c1Cex_chunks]; decide⟩).startChar = 0 ∧
    (∀ c ∈ createContentChunks c1CexText, c.total = (createContentChunks c1CexText).length) ∧
    ((createContentChunks c1CexText).get ⟨1, by rw [c1Cex_chunks]; decide⟩).index = 1 ∧
    ((createContentChunks c1CexText).map ContentChunk.endChar) = [16000, 32500] := by
  have h := c1_chunk_invariants c1CexText
  have hlen : (createContentChunks c1CexText).length = 2 := by rw [c1Cex_chunks]; rfl
  exact ⟨h.1 0 (by omega), h.2.1 (by omega), h.2.2.1, h.2.2.2.1 1 (by omega),
    by rw [c1Cex_chunks]; rfl⟩

theorem withRetryGo_calls_le {E A : Type} (fn : Nat → Except E A) (d : Nat)
    (b : Backoff) (a0 : Nat) :
    ∀ r i last, (withRetryGo fn d b a0 i r last).calls ≤ r := by
  intro r
  induction r with
  | zero => intro i last; simp [withRetryGo]
  | succ r ih =>
    intro i last
    rw [withRetryGo]
    cases hfn : fn i with
    | ok a => simp
    | error e =>
      dsimp only
      by_cases hr : r = 0
      · subst hr; simp
      · rw [if_neg hr]
        have := ih (i + 1) (some e)
        dsimp only
        omega

theorem withRetryGo_allfail {E A : Type} (fn : Nat → Except E A) (e : Nat → E)
    (d : Nat) (b : Backoff) (a0 : Nat) :
    ∀ r i last, 1 ≤ r → (∀ j, i ≤ j → j < i + r → fn j = .error (e j)) →
      withRetryGo fn d b a0 i r last =
        ⟨.error ⟨a0, some (e (i + r - 1))⟩, r,
          (List.range' i (r - 1)).map (backoffWait b d)⟩ := by
  intro r
  induction r with
  | zero => intro i last h; omega
  | succ r ih =>
    intro i last h1 hf
    rw [withRetryGo, hf i (Nat.le_refl i) (by omega)]
    dsimp only
    by_cases hr : r = 0
    · subst hr
      simp
    · rw [if_neg hr]
      have hr1 : 1 ≤ r := Nat.one_le_iff_ne_zero.mpr hr
      rw [ih (i + 1) (some (e i)) hr1 (fun j hj1 hj2 => hf j (by omega) (by omega))]
      have hidx : i + 1 + r - 1 = i + (r + 1) - 1 := by omega
      obtain ⟨r2, rfl⟩ : ∃ r2, r = r2 + 1 := ⟨r - 1, by omega⟩
      rw [hidx]
      simp only [Nat.add_sub_cancel, List.range'_succ, List.map_cons]

/-- C5: the SDK retry executor with attempt budget `k ≥ 1` calls the wrapped
operation at most `k` times in general and exactly `k` times when every
attempt fails; the delay slept before retry attempt `i` (0-indexed) is
`backoffWait`, that is `d * 2 ^ i` for exponential and `d * (i + 1)` for
linear backoff; after exhaustion it fails with an aggregate `EngineError`
carrying the last underlying cause. -/
theorem c5_withRetry_backoff {E A : Type} (fn : Nat → Except E A) (e : Nat → E)
    (k d : Nat) (b : Backoff) (hk : 1 ≤ k)
    (hf : ∀ i, i < k → fn i = .error (e i)) :
    (withRetry fn k d b).calls = k ∧
    (withRetry fn k d b).result = .error ⟨k, some (e (k - 1))⟩ ∧
    (withRetry fn k d b).delays = (List.range (k - 1)).map (backoffWait b d) ∧
    (∀ g : Nat → Except E A, (withRetry g k d b).calls ≤ k) := by
  have h := withRetryGo_allfail fn e d b k k 0 none hk (fun j _ hj => hf j (by omega))
  rw [withRetry, h]
  refine ⟨rfl, by simp, ?_, fun g => withRetryGo_calls_le g d b k k 0 none⟩
  rw [List.range_eq_range']

/-- Witness for C5: three attempts, base delay 5, exponential backoff, an
operation that always fails with error 7: exactly 3 calls, delays 5 then 10,
and the aggregate error carries cause 7. -/
theorem c5_withRetry_backoff_witness :
    (withRetry (fun _ => Except.error 7 : Nat → Except Nat Unit) 3 5 .exponential).calls = 3 ∧
    (withRetry (fun _ => Except.error 7 : Nat → Except Nat Unit) 3 5 .exponential).result =
      Except.error ⟨3, some 7⟩ ∧
    (withRetry (fun _ => Except.error 7 : Nat → Except Nat Unit) 3 5 .exponential).delays =
      [5, 10] ∧
    (∀ g : Nat → Except Nat Unit, (withRetry g 3 5 .exponential).calls ≤ 3) := by
  have h := c5_withRetry_backoff (fun _ => Except.error 7 : Nat → Except Nat Unit)
    (fun _ => (7 : Nat)) 3 5 .exponential (by decide) (fun i _ => rfl)
  refine ⟨h.1, h.2.1, ?_, h.2.2.2⟩
  rw [h.2.2.1]
  rfl

/-- C6 is a code bug: with a zero retry budget the spec promises exactly one
attempt, but `Scraper.withRetry` with `attempts = 0` never runs the loop
body — zero calls — and throws `EngineError` with no cause, while
`summarizeContent` coerces `maxRetries = 0` to the default 3 through
JavaScript `||`.  This theorem evaluates both at the failing input. -/
theorem c6_zero_retries_divergence :
    (withRetry (fun _ => Except.error 7 : Nat → Except Nat Unit) 0 5 .exponential).calls = 0 ∧
    (withRetry (fun _ => Except.error 7 : Nat → Except Nat Unit) 0 5 .exponential).result =
      Except.error ⟨0, none⟩ ∧
    effectiveMaxRetries ⟨some 0, none, false⟩ = 3 :=
  ⟨rfl, rfl, rfl⟩

/-- C7: when an attempt of the wrapped operation fails with an error
classified non-retryable (`SummarizerError` with `retryable = false`), the
retry executor `retryWithBackoff` propagates that error immediately: the
result is the fatal error, the state is the one attempt's state, and exactly
one attempt was made. -/
theorem c7_nonretryable_immediate {A σ : Type} (op : σ → Except SummErr A × σ)
    (k : Nat) (st st1 : σ) (e : SummErr) (hk : 1 ≤ k)
    (hop : op st = (.error e, st1)) (hnr : e.retryable = false) :
    retryWithBackoffM op k st = ⟨.error (.fatal e), st1, 1⟩ := by
  obtain ⟨k2, rfl⟩ : ∃ k2, k = k2 + 1 := ⟨k - 1, by omega⟩
  rw [retryWithBackoffM, retryWithBackoffSt, hop]
  simp [hnr]

/-- Witness for C7: a non-retryable `INVALID_URL` error at a direct call
under budget 3 propagates immediately after a single recorded call. -/
theorem c7_nonretryable_immediate_witness :
    retryWithBackoffM
        (genAttempt (fun _ => Except.error ⟨"bad", "INVALID_URL", false⟩) (.direct []))
        3 ⟨[]⟩ =
      ⟨.error (.fatal ⟨"bad", "INVALID_URL", false⟩), ⟨[AICall.direct []]⟩, 1⟩ :=
  c7_nonretryable_immediate
    (genAttempt (fun _ => Except.error ⟨"bad", "INVALID_URL", false⟩) (.direct []))
    3 ⟨[]⟩ ⟨[AICall.direct []]⟩ ⟨"bad", "INVALID_URL", false⟩ (by decide) rfl rfl

theorem effectiveMaxRetries_pos (o : SummaryOptions) : 1 ≤ effectiveMaxRetries o := by
  unfold effectiveMaxRetries
  split <;> omega

theorem oneCallReps_pos (gen : GenOracle) (c : AICall) {k : Nat} (hk : 1 ≤ k) :
    1 ≤ oneCallReps gen c k := by
  unfold oneCallReps
  split
  · omega
  · split <;> omega

theorem retry_genAttempt_ok {gen : GenOracle} {c : AICall} {t : Str}
    (hout : genOutcome gen c = .ok t) :
    ∀ k last st, 1 ≤ k → retryWithBackoffSt (genAttempt gen c) k last st =
      ⟨.ok t, pushCall st c, 1⟩ := by
  intro k last st hk
  obtain ⟨k2, rfl⟩ : ∃ k2, k = k2 + 1 := ⟨k - 1, by omega⟩
  rw [retryWithBackoffSt]
  dsimp only [genAttempt]
  rw [hout]

theorem retry_genAttempt_fatal {gen : GenOracle} {c : AICall} {e : SummErr}
    (hout : genOutcome gen c = .error e) (hnr : e.retryable = false) :
    ∀ k last st, 1 ≤ k → retryWithBackoffSt (genAttempt gen c) k last st =
      ⟨.error (.fatal e), pushCall st c, 1⟩ := by
  intro k last st hk
  obtain ⟨k2, rfl⟩ : ∃ k2, k = k2 + 1 := ⟨k - 1, by omega⟩
  rw [retryWithBackoffSt]
  dsimp only [genAttempt]
  rw [hout]
  simp [hnr]

theorem retry_genAttempt_retryable {gen : GenOracle} {c : AICall} {e : SummErr}
    (hout : genOutcome gen c = .error e) (hr : e.retryable = true) :
    ∀ k last st, 1 ≤ k → retryWithBackoffSt (genAttempt gen c) k last st =
      ⟨.error (.exhausted (some e)), pushCalls st (List.replicate k c), k⟩ := by
  intro k
  induction k with
  | zero => intro last st h; omega
  | succ k ih =>
    intro last st _
    rw [retryWithBackoffSt]
    dsimp only [genAttempt]
    rw [hout]
    simp only [hr, if_true]
    cases k with
    | zero =>
      rw [retryWithBackoffSt]
      simp [pushCall, pushCalls]
    | succ k2 =>
      rw [ih (some e) (pushCall st c) (by omega)]
      simp [pushCall, pushCalls, List.replicate_succ, List.append_assoc]

/-- Characterization of one summarizer operation under retry with a
deterministic oracle and a positive budget: the outcome is `oneCallResult`
and the trace gains `oneCallReps` copies of the call. -/
theorem retry_genAttempt_char (gen : GenOracle) (c : AICall) {k : Nat}
    (hk : 1 ≤ k) (st : AIState) :
    retryWithBackoffM (genAttempt gen c) k st =
      ⟨oneCallResult gen c,
        pushCalls st (List.replicate (oneCallReps gen c k) c),
        oneCallReps gen c k⟩ := by
  unfold retryWithBackoffM oneCallResult oneCallReps
  cases hout : genOutcome gen c with
  | ok t =>
    rw [retry_genAttempt_ok hout k none st hk]
    simp [pushCall, pushCalls]
  | error e =>
    cases hr : e.retryable with
    | false =>
      rw [retry_genAttempt_fatal hout hr k none st hk]
      simp [pushCall, pushCalls, hr]
    | true =>
      rw [retry_genAttempt_retryable hout hr k none st hk]
      simp [hr]

/-- Characterization of the sequential per-chunk loop: its outcome is
`loopResult` and its trace extension is `loopTrace`. -/
theorem chunkLoopSt_char (gen : GenOracle) (opts : SummaryOptions) :
    ∀ (cs : List ContentChunk) (st : AIState),
      chunkLoopSt gen opts cs st =
        (loopResult gen cs, pushCalls st (loopTrace gen opts cs)) := by
  intro cs
  induction cs with
  | nil =>
    intro st
    simp [chunkLoopSt, loopResult, loopTrace, pushCalls]
  | cons c cs ih =>
    intro st
    rw [chunkLoopSt]
    rw [show summarizeChunkSt gen opts c st =
        ⟨oneCallResult gen (.chunkCall c),
          pushCalls st (List.replicate
            (oneCallReps gen (.chunkCall c) (effectiveMaxRetries opts)) (.chunkCall c)),
          oneCallReps gen (.chunkCall c) (effectiveMaxRetries opts)⟩ from
      retry_genAttempt_char gen _ (effectiveMaxRetries_pos opts) st]
    cases hres : oneCallResult gen (.chunkCall c) with
    | error e =>
      dsimp only
      rw [loopResult, loopTrace, hres]
      simp [pushCalls]
    | ok s =>
      dsimp only
      rw [ih]
      rw [loopResult, loopTrace, hres]
      cases loopResult gen cs with
      | error e => simp [pushCalls, List.append_assoc]
      | ok ss => simp [pushCalls, List.append_assoc]

theorem summarizeContentSt_multi_err {gen : GenOracle} {content : Str}
    {opts : SummaryOptions} {e : RetryErr}
    (h1 : (createContentChunks content).length ≠ 1)
    (h2 : loopResult gen (createContentChunks content) = .error e) (st : AIState) :
    summarizeContentSt gen content opts st =
      (.error e, pushCalls st (loopTrace gen opts (createContentChunks content))) := by
  unfold summarizeContentSt
  rw [if_neg h1, chunkLoopSt_char, h2]

theorem summarizeContentSt_multi_ok {gen : GenOracle} {content : Str}
    {opts : SummaryOptions} {ss : List Str}
    (h1 : (createContentChunks content).length ≠ 1)
    (h2 : loopResult gen (createContentChunks content) = .ok ss) (st : AIState) :
    summarizeContentSt gen content opts st =
      (oneCallResult gen (.synthesis ss),
        pushCalls st (loopTrace gen opts (createContentChunks content) ++
          List.replicate (oneCallReps gen (.synthesis ss) (effectiveMaxRetries opts))
            (.synthesis ss))) := by
  unfold summarizeContentSt
  rw [if_neg h1, chunkLoopSt_char, h2]
  dsimp only
  rw [show synthesizeChunkSummariesSt gen opts ss
        (pushCalls st (loopTrace gen opts (createContentChunks content))) =
      ⟨oneCallResult gen (.synthesis ss),
        pushCalls (pushCalls st (loopTrace gen opts (createContentChunks content)))
          (List.replicate (oneCallReps gen (.synthesis ss) (effectiveMaxRetries opts))
            (.synthesis ss)),
        oneCallReps gen (.synthesis ss) (effectiveMaxRetries opts)⟩ from
    retry_genAttempt_char gen _ (effectiveMaxRetries_pos opts) _]
  simp [pushCalls, List.append_assoc]

theorem loopTrace_mem {gen : GenOracle} {opts : SummaryOptions} :
    ∀ {cs : List ContentChunk} {x : AICall}, x ∈ loopTrace gen opts cs →
      ∃ c ∈ cs, x = .chunkCall c := by
  intro cs
  induction cs with
  | nil => intro x hx; simp [loopTrace] at hx
  | cons c cs ih =>
    intro x hx
    rw [loopTrace] at hx
    rcases List.mem_append.mp hx with hx1 | hx2
    · exact ⟨c, by simp, List.eq_of_mem_replicate hx1⟩
    · rcases hres : oneCallResult gen (.chunkCall c) with e | s
      · rw [hres] at hx2; simp at hx2
      · rw [hres] at hx2
        obtain ⟨d, hd, rfl⟩ := ih hx2
        exact ⟨d, by simp [hd], rfl⟩

theorem chunkIdxList_loopTrace_mem {gen : GenOracle} {opts : SummaryOptions}
    {cs : List ContentChunk} {i : Nat}
    (hi : i ∈ chunkIdxList (loopTrace gen opts cs)) : ∃ c ∈ cs, i = c.index := by
  unfold chunkIdxList at hi
  obtain ⟨x, hx, hix⟩ := List.mem_filterMap.mp hi
  obtain ⟨c, hc, rfl⟩ := loopTrace_mem hx
  simp only [Option.some.injEq] at hix
  exact ⟨c, hc, hix.symm⟩

theorem chunkIdxList_append (l1 l2 : List AICall) :
    chunkIdxList (l1 ++ l2) = chunkIdxList l1 ++ chunkIdxList l2 := by
  unfold chunkIdxList
  rw [List.filterMap_append]

theorem chunkIdxList_replicate_synth (n : Nat) (ss : List Str) :
    chunkIdxList (List.replicate n (.synthesis ss)) = [] := by
  induction n with
  | zero => rfl
  | succ n ih =>
    rw [List.replicate_succ]
    unfold chunkIdxList at ih ⊢
    rw [List.filterMap_cons]
    exact ih

theorem chunkIdxList_replicate_chunk (n : Nat) (c : ContentChunk) :
    chunkIdxList (List.replicate n (.chunkCall c)) = List.replicate n c.index := by
  induction n with
  | zero => rfl
  | succ n ih =>
    unfold chunkIdxList at ih ⊢
    rw [List.replicate_succ, List.replicate_succ, List.filterMap_cons]
    dsimp only
    rw [ih]

theorem chunkIdxList_loopTrace_sorted {gen : GenOracle} {opts : SummaryOptions} :
    ∀ {cs : List ContentChunk},
      List.Pairwise (fun a b => a.index ≤ b.index) cs →
      List.Pairwise (· ≤ ·) (chunkIdxList (loopTrace gen opts cs)) := by
  intro cs
  induction cs with
  | nil => intro _; simp [loopTrace, chunkIdxList]
  | cons c cs ih =>
    intro hp
    rw [loopTrace, chunkIdxList_append]
    rw [List.pairwise_append]
    refine ⟨?_, ?_, ?_⟩
    · rw [chunkIdxList_replicate_chunk]
      simp
    · rcases hres : oneCallResult gen (.chunkCall c) with e | s
      · simp [chunkIdxList]
      · exact ih (List.Pairwise.sublist (List.sublist_cons_self c cs) hp)
    · intro x hx y hy
      rcases hres : oneCallResult gen (.chunkCall c) with e | s <;> rw [hres] at hy
      · simp [chunkIdxList] at hy
      · have hxc : x = c.index := by
          rw [chunkIdxList_replicate_chunk] at hx
          exact List.eq_of_mem_replicate hx
        obtain ⟨d, hd, rfl⟩ := chunkIdxList_loopTrace_mem hy
        rw [hxc]
        exact (List.pairwise_cons.mp hp).1 d hd

theorem loopResult_ok_iff (gen : GenOracle) :
    ∀ cs : List ContentChunk,
      (∃ ss, loopResult gen cs = .ok ss) ↔
        ∀ c ∈ cs, ∃ s, oneCallResult gen (.chunkCall c) = .ok s := by
  intro cs
  induction cs with
  | nil => simp [loopResult]
  | cons c cs ih =>
    constructor
    · rintro ⟨ss, hss⟩
      rw [loopResult] at hss
      rcases h1 : oneCallResult gen (.chunkCall c) with e | s <;> rw [h1] at hss
      · cases hss
      · rcases h2 : loopResult gen cs with e2 | ss2 <;> rw [h2] at hss
        · cases hss
        · intro d hd
          rcases List.mem_cons.mp hd with rfl | hd2
          · exact ⟨s, h1⟩
          · exact ih.mp ⟨ss2, h2⟩ d hd2
    · intro hall
      obtain ⟨s, hs⟩ := hall c (by simp)
      obtain ⟨ss, hss⟩ := ih.mpr (fun d hd => hall d (by simp [hd]))
      refine ⟨s :: ss, ?_⟩
      rw [loopResult, hs, hss]

theorem loopResult_err (gen : GenOracle) :
    ∀ {cs : List ContentChunk} {e : RetryErr}, loopResult gen cs = .error e →
      ∃ c ∈ cs, ∃ e2, oneCallResult gen (.chunkCall c) = .error e2 := by
  intro cs
  induction cs with
  | nil => intro e h; cases h
  | cons c cs ih =>
    intro e h
    rw [loopResult] at h
    rcases h1 : oneCallResult gen (.chunkCall c) with e2 | s <;> rw [h1] at h
    · exact ⟨c, by simp, e2, h1⟩
    · rcases h2 : loopResult gen cs with e2 | ss2 <;> rw [h2] at h
      · obtain ⟨d, hd, he2⟩ := ih h2
        exact ⟨d, by simp [hd], he2⟩
      · cases h

theorem createContentChunks_index_mono (content : Str) :
    List.Pairwise (fun a b : ContentChunk => a.index ≤ b.index)
      (createContentChunks content) := by
  have hwf := createContentChunks_wf content
  rw [List.pairwise_iff_get]
  intro i j hij
  rw [chunksWF_index hwf i.1 i.2, chunksWF_index hwf j.1 j.2]
  omega

/-- C3: in the multi-chunk path of `summarizeContent`, the chunk-scoped
model calls are issued sequentially in chunk index order; the synthesis call
appears in the trace exactly when every chunk's summarization succeeded; if
any chunk's summarization fails after its retries, the whole operation fails
and no synthesis call is issued; and a successful result implies every chunk
succeeded — no result from a proper subset of chunks. -/
theorem c3_sequential_then_synthesis (gen : GenOracle) (content : Str)
    (opts : SummaryOptions) (h2 : 2 ≤ (createContentChunks content).length) :
    List.Pairwise (· ≤ ·)
      (chunkIdxList (summarizeContentSt gen content opts ⟨[]⟩).2.calls) ∧
    ((∃ ss, AICall.synthesis ss ∈ (summarizeContentSt gen content opts ⟨[]⟩).2.calls) ↔
      ∀ c ∈ createContentChunks content, ∃ s, oneCallResult gen (.chunkCall c) = .ok s) ∧
    ((∃ c ∈ createContentChunks content,
        ∃ e, oneCallResult gen (.chunkCall c) = .error e) →
      (∃ e, (summarizeContentSt gen content opts ⟨[]⟩).1 = .error e) ∧
      ∀ ss, AICall.synthesis ss ∉ (summarizeContentSt gen content opts ⟨[]⟩).2.calls) ∧
    (∀ s, (summarizeContentSt gen content opts ⟨[]⟩).1 = .ok s →
      ∀ c ∈ createContentChunks content, ∃ t, oneCallResult gen (.chunkCall c) = .ok t) := by
  have h1 : (createContentChunks content).length ≠ 1 := by omega
  have hmono := createContentChunks_index_mono content
  rcases hres : loopResult gen (createContentChunks content) with e | ss
  · rw [summarizeContentSt_multi_err h1 hres]
    dsimp only [pushCalls]
    simp only [List.nil_append]
    have hnos : ∀ ss, AICall.synthesis ss ∉
        loopTrace gen opts (createContentChunks content) := by
      intro ss hmem
      obtain ⟨c, _, hcx⟩ := loopTrace_mem hmem
      cases hcx
    refine ⟨chunkIdxList_loopTrace_sorted hmono, ?_, ?_, ?_⟩
    · constructor
      · rintro ⟨ss, hss⟩
        exact absurd hss (hnos ss)
      · intro hall
        obtain ⟨ss, hss⟩ := (loopResult_ok_iff gen _).mpr hall
        rw [hres] at hss
        cases hss
    · intro _
      exact ⟨⟨e, rfl⟩, hnos⟩
    · intro s hs
      cases hs
  · rw [summarizeContentSt_multi_ok h1 hres]
    dsimp only [pushCalls]
    simp only [List.nil_append]
    have hall := (loopResult_ok_iff gen _).mp ⟨ss, hres⟩
    refine ⟨?_, ?_, ?_, ?_⟩
    · rw [chunkIdxList_append, chunkIdxList_replicate_synth]
      rw [List.append_nil]
      exact chunkIdxList_loopTrace_sorted hmono
    · constructor
      · intro _; exact hall
      · intro _
        refine ⟨ss, List.mem_append.mpr (Or.inr ?_)⟩
        apply List.mem_replicate.mpr
        exact ⟨by have := oneCallReps_pos gen (.synthesis ss)
                   (effectiveMaxRetries_pos opts); omega, rfl⟩
    · rintro ⟨c, hc, e, he⟩
      obtain ⟨s, hs⟩ := hall c hc
      rw [hs] at he
      cases he
    · intro s _ c hc
      exact hall c hc

/-- Witness for C3 at the concrete two-chunk text with an oracle that always
generates non-blank output: the chunk calls are in index order and the
synthesis call is issued. -/
theorem c3_sequential_then_synthesis_witness :
    (2 ≤ (createContentChunks c1CexText).length) ∧
    List.Pairwise (· ≤ ·)
      (chunkIdxList ((summarizeContentSt (fun _ => Except.ok ['o', 'k'])
        c1CexText ⟨none, none, false⟩ ⟨[]⟩).2.calls)) ∧
    (∃ ss, AICall.synthesis ss ∈ (summarizeContentSt (fun _ => Except.ok ['o', 'k'])
        c1CexText ⟨none, none, false⟩ ⟨[]⟩).2.calls) := by
  have hlen : 2 ≤ (createContentChunks c1CexText).length := by
    rw [c1Cex_chunks]; decide
  have h := c3_sequential_then_synthesis (fun _ => Except.ok ['o', 'k'])
    c1CexText ⟨none, none, false⟩ hlen
  exact ⟨hlen, h.1, h.2.1.mpr (fun c _ => ⟨['o', 'k'], rfl⟩)⟩

theorem dropWhile_nl_replicate (n : Nat) :
    (List.replicate n '\n').dropWhile (fun x => x = '\n') = [] := by
  induction n with
  | zero => rfl
  | succ n ih =>
    rw [List.replicate_succ, List.dropWhile_cons_of_pos (by simp)]
    exact ih

theorem splitParas_c10 : splitParas c10NlText = [[], []] := by
  unfold splitParas c10NlText
  rw [show List.replicate 32001 '\n' = '\n' :: '\n' :: List.replicate 31999 '\n' by
    rw [show (32001 : Nat) = 32000 + 1 from rfl, List.replicate_succ,
      show (32000 : Nat) = 31999 + 1 from rfl, List.replicate_succ]]
  rw [splitParasGo, if_pos ⟨rfl, rfl⟩]
  rw [List.dropWhile_cons_of_pos (by simp), dropWhile_nl_replicate]
  rw [splitParasGo]
  rfl

theorem c10_chunks : createContentChunks c10NlText = [] := by
  have hlen : c10NlText.length = 32001 := by rw [c10NlText, List.length_replicate]
  rw [createContentChunks_long (by
    rw [hlen]
    norm_num [MAX_CHUNK_CHARS, MAX_CHUNK_TOKENS, CHARS_PER_TOKEN])]
  have hstep : paraStep (⟨[], 0, 0⟩, ([] : Str)) [] = (⟨[], 0, 0⟩, []) := by
    simp [paraStep, paraSeal, paraPotential,
      MAX_CHUNK_CHARS, MAX_CHUNK_TOKENS, CHARS_PER_TOKEN]
  have hacc : chunkAccum c10NlText = (⟨[], 0, 0⟩, []) := by
    unfold chunkAccum
    rw [splitParas_c10, List.foldl_cons, hstep, List.foldl_cons, hstep, List.foldl_nil]
  have hfin : chunkFinal c10NlText = ⟨[], 0, 0⟩ := by
    simp [chunkFinal, hacc]
  rw [hfin]
  rfl

theorem summarizeContentSt_c10 (gen : GenOracle) (opts : SummaryOptions) :
    summarizeContentSt gen c10NlText opts ⟨[]⟩ =
      (oneCallResult gen (.synthesis []),
        ⟨List.replicate (oneCallReps gen (.synthesis []) (effectiveMaxRetries opts))
          (.synthesis [])⟩) := by
  have h1 : (createContentChunks c10NlText).length ≠ 1 := by rw [c10_chunks]; decide
  have h2 : loopResult gen (createContentChunks c10NlText) = .ok [] := by
    rw [c10_chunks]; rfl
  rw [summarizeContentSt_multi_ok h1 h2, c10_chunks]
  simp [loopTrace, pushCalls]

/-- C10: the all-newline text of 32001 characters exceeds the chunk limit
yet `createContentChunks` returns zero chunks, and `summarizeContent` on it
issues no chunk-scoped model call and (with a successfully generating
oracle) exactly one synthesis call whose summaries list is empty — a prompt
with no section summaries. -/
theorem c10_empty_chunklist_synthesis :
    MAX_CHUNK_CHARS < c10NlText.length ∧
    createContentChunks c10NlText = [] ∧
    (∀ (gen : GenOracle) (opts : SummaryOptions) (c : ContentChunk),
      AICall.chunkCall c ∉ (summarizeContentSt gen c10NlText opts ⟨[]⟩).2.calls) ∧
    (∀ opts : SummaryOptions,
      summarizeContentSt (fun _ => Except.ok ['o', 'k']) c10NlText opts ⟨[]⟩ =
        (.ok ['o', 'k'], ⟨[.synthesis []]⟩)) := by
  refine ⟨?_, c10_chunks, ?_, ?_⟩
  · rw [c10NlText, List.length_replicate]
    norm_num [MAX_CHUNK_CHARS, MAX_CHUNK_TOKENS, CHARS_PER_TOKEN]
  · intro gen opts c hmem
    rw [summarizeContentSt_c10] at hmem
    exact absurd (List.eq_of_mem_replicate hmem) (by intro h; cases h)
  · intro opts
    rw [summarizeContentSt_c10]
    rfl

theorem iterate_append_singleton {α : Type} (x : α) :
    ∀ (n : Nat) (l : List α), (fun t => t ++ [x])^[n] l = l ++ List.replicate n x := by
  intro n
  induction n with
  | zero => intro l; simp
  | succ n ih =>
    intro l
    rw [Function.iterate_succ_apply, ih]
    simp [List.replicate_succ, List.append_assoc]

theorem retry_pushOp_char {A σ : Type} (r0 : Except SummErr A) (push : σ → σ) :
    ∀ (k : Nat), 1 ≤ k → ∀ (last : Option SummErr) (st : σ),
      retryWithBackoffSt (fun s => (r0, push s)) k last st =
        ⟨constRes r0, push^[constReps r0 k] st, constReps r0 k⟩ := by
  intro k
  induction k with
  | zero => intro h; omega
  | succ k ih =>
    intro _ last st
    rw [retryWithBackoffSt]
    rcases r0 with e | a
    · dsimp only
      cases hr : e.retryable with
      | false =>
        simp only [hr, Bool.false_eq_true, if_false]
        simp [constRes, constReps, hr]
      | true =>
        simp only [hr, if_true]
        cases k with
        | zero =>
          rw [retryWithBackoffSt]
          simp [constRes, constReps, hr]
        | succ k2 =>
          rw [ih (by omega) (some e) (push st)]
          simp only [constRes, constReps, hr, if_true]
          rw [← Function.iterate_succ_apply]
    · simp [constRes, constReps]

theorem retry_pushOp_charM {A σ : Type} (r0 : Except SummErr A) (push : σ → σ)
    (k : Nat) (hk : 1 ≤ k) (st : σ) :
    retryWithBackoffM (fun s => (r0, push s)) k st =
      ⟨constRes r0, push^[constReps r0 k] st, constReps r0 k⟩ :=
  retry_pushOp_char r0 push k hk none st

theorem processUrlSt_char (env : UrlOracle) (opts : SummaryOptions) (u : Str)
    (tr : List BatchEv) :
    processUrlSt env opts u tr =
      ((processUrlSt env opts u []).1,
        tr ++ List.replicate (urlReps env opts u) (.nav u)) := by
  have hpush : ∀ tr2 : List BatchEv,
      retryWithBackoffM (urlAttempt env u) (effectiveMaxRetries opts) tr2 =
        ⟨constRes (env u), tr2 ++ List.replicate (urlReps env opts u) (BatchEv.nav u),
          urlReps env opts u⟩ := by
    intro tr2
    have h := retry_pushOp_charM (env u) (fun l => l ++ [BatchEv.nav u])
      (effectiveMaxRetries opts) (effectiveMaxRetries_pos opts) tr2
    rw [iterate_append_singleton] at h
    exact h
  unfold processUrlSt
  rw [hpush tr, hpush []]
  rcases constRes (env u) with e | d <;> simp

theorem batchLoop_char (env : UrlOracle) (opts : SummaryOptions) :
    ∀ (urls : List Str) (tr : List BatchEv),
      batchLoop env opts urls tr =
        (urls.map (resultFor env opts),
          tr ++ urls.flatMap (navTraceFor env opts)) := by
  intro urls
  induction urls with
  | nil => intro tr; simp [batchLoop]
  | cons u us ih =>
    intro tr
    rw [batchLoop]
    by_cases hu : isValidUrl u
    · rw [if_pos hu, processUrlSt_char]
      dsimp only
      rw [ih]
      dsimp only
      simp only [List.map_cons, List.flatMap_cons]
      rw [show resultFor env opts u = (processUrlSt env opts u []).1 from by
        unfold resultFor; rw [if_pos hu]]
      rw [show navTraceFor env opts u =
          List.replicate (urlReps env opts u) (.nav u) from by
        unfold navTraceFor; rw [if_pos hu]]
      simp [List.append_assoc]
    · rw [if_neg hu, ih]
      dsimp only
      simp only [List.map_cons, List.flatMap_cons]
      rw [show resultFor env opts u = invalidUrlResult u from by
        unfold resultFor; rw [if_neg hu]]
      rw [show navTraceFor env opts u = [] from by
        unfold navTraceFor; rw [if_neg hu]]
      simp

/-- The complete characterization of one batch run: the results are the
per-URL results in order; the trace is the navigation events followed by
the comparative-call block exactly when comparative analysis is due; the
comparative text is present exactly when the due call succeeds. -/
theorem summarizeBatchSt_char (env : UrlOracle) (compEnv : CompOracle)
    (opts : SummaryOptions) (urls : List Str) :
    summarizeBatchSt env compEnv opts urls =
      ⟨urls.map (resultFor env opts),
        (if opts.comparative ∧
            2 ≤ (((urls.map (resultFor env opts)).filter
              (fun r => r.error.isNone)).length) then
          (match constRes (compOutcome compEnv ((urls.map (resultFor env opts)).filter
              (fun r => r.error.isNone))) with
           | .ok s => some s
           | .error _ => none)
        else none),
        urls.flatMap (navTraceFor env opts) ++
          (if opts.comparative ∧
              2 ≤ (((urls.map (resultFor env opts)).filter
                (fun r => r.error.isNone)).length) then
            List.replicate
              (constReps (compOutcome compEnv ((urls.map (resultFor env opts)).filter
                (fun r => r.error.isNone))) (effectiveMaxRetries opts))
              (BatchEv.comp ((urls.map (resultFor env opts)).filter
                (fun r => r.error.isNone)))
          else [])⟩ := by
  unfold summarizeBatchSt
  rw [batchLoop_char]
  dsimp only
  split
  · rw [show retryWithBackoffM
        (compAttempt compEnv ((urls.map (resultFor env opts)).filter
          (fun r => r.error.isNone)))
        (effectiveMaxRetries opts) ([] ++ urls.flatMap (navTraceFor env opts)) =
        ⟨constRes (compOutcome compEnv ((urls.map (resultFor env opts)).filter
            (fun r => r.error.isNone))),
          ([] ++ urls.flatMap (navTraceFor env opts)) ++
            List.replicate (constReps (compOutcome compEnv
              ((urls.map (resultFor env opts)).filter (fun r => r.error.isNone)))
              (effectiveMaxRetries opts))
              (BatchEv.comp ((urls.map (resultFor env opts)).filter
                (fun r => r.error.isNone))),
          constReps (compOutcome compEnv ((urls.map (resultFor env opts)).filter
            (fun r => r.error.isNone))) (effectiveMaxRetries opts)⟩ from by
      have h := retry_pushOp_charM
        (compOutcome compEnv ((urls.map (resultFor env opts)).filter
          (fun r => r.error.isNone)))
        (fun l => l ++ [BatchEv.comp ((urls.map (resultFor env opts)).filter
          (fun r => r.error.isNone))])
        (effectiveMaxRetries opts) (effectiveMaxRetries_pos opts)
        ([] ++ urls.flatMap (navTraceFor env opts))
      rw [iterate_append_singleton] at h
      exact h]
    rcases constRes (compOutcome compEnv ((urls.map (resultFor env opts)).filter
      (fun r => r.error.isNone))) with e | s
    · simp_all
    · simp_all
  · simp_all

theorem navTrace_valid {env : UrlOracle} {opts : SummaryOptions} {urls : List Str}
    {u : Str} (hu : BatchEv.nav u ∈ urls.flatMap (navTraceFor env opts)) :
    isValidUrl u = true := by
  obtain ⟨v, _, hv⟩ := List.mem_flatMap.mp hu
  unfold navTraceFor at hv
  split at hv
  · cases List.eq_of_mem_replicate hv
    assumption
  · simp at hv

/-- C4: `summarizeBatch` returns exactly one `BatchResult` per input URL in
the original input order, each a function of its own URL alone (so one
URL's failure or outcome never aborts the batch or affects another's
result); every navigation event in the trace is to a valid URL — a
syntactically invalid URL is never navigated to and consumes no retry —
and an invalid URL's result is the error-tagged `Invalid URL format`
result; every result carries its input URL. -/
theorem c4_batch_per_url (env : UrlOracle) (compEnv : CompOracle)
    (opts : SummaryOptions) (urls : List Str) :
    (summarizeBatchSt env compEnv opts urls).results = urls.map (resultFor env opts) ∧
    (∀ u, BatchEv.nav u ∈ (summarizeBatchSt env compEnv opts urls).trace →
      isValidUrl u = true) ∧
    (∀ u, isValidUrl u = false → resultFor env opts u = invalidUrlResult u) ∧
    (∀ u, (resultFor env opts u).url = u) ∧
    (∀ u e, isValidUrl u = true → constRes (env u) = Except.error e →
      (resultFor env opts u).error = some (retryErrMessage e)) := by
  rw [summarizeBatchSt_char]
  refine ⟨rfl, ?_, ?_, ?_, ?_⟩
  · intro u hu
    dsimp only at hu
    rcases List.mem_append.mp hu with h1 | h2
    · exact navTrace_valid h1
    · split at h2
      · cases List.eq_of_mem_replicate h2
      · simp at h2
  · intro u hu
    unfold resultFor
    rw [if_neg (by rw [hu]; intro h; cases h)]
  · intro u
    unfold resultFor
    split
    · unfold processUrlSt
      rcases retryWithBackoffM (urlAttempt env u) (effectiveMaxRetries opts) [] with
        ⟨res, tr1, n⟩
      rcases res with e | d <;> rfl
    · rfl
  · intro u e hu he
    unfold resultFor
    rw [if_pos hu]
    unfold processUrlSt
    rw [show retryWithBackoffM (urlAttempt env u) (effectiveMaxRetries opts) [] =
        ⟨constRes (env u), [] ++ List.replicate (urlReps env opts u) (BatchEv.nav u),
          urlReps env opts u⟩ from by
      have h := retry_pushOp_charM (env u) (fun l => l ++ [BatchEv.nav u])
        (effectiveMaxRetries opts) (effectiveMaxRetries_pos opts) ([] : List BatchEv)
      rw [iterate_append_singleton] at h
      exact h]
    rw [he]

/-- Witness for C4: the two-entry batch `[https://a, nota]` with an
always-succeeding collaborator: two results in order, the invalid second
entry short-circuits to the `Invalid URL format` result. -/
theorem c4_batch_per_url_witness :
    isValidUrl ("nota".data) = false ∧
    resultFor (fun _ => Except.ok ⟨['s'], ⟨[], [], [], []⟩⟩) ⟨none, none, false⟩
      ("nota".data) = invalidUrlResult ("nota".data) ∧
    (resultFor (fun _ => Except.ok ⟨['s'], ⟨[], [], [], []⟩⟩) ⟨none, none, false⟩
      ("https://a".data)).url = "https://a".data ∧
    (summarizeBatchSt (fun _ => Except.ok ⟨['s'], ⟨[], [], [], []⟩⟩)
        (fun _ => Except.ok ['c']) ⟨none, none, false⟩
        ["https://a".data, "nota".data]).results =
      [resultFor (fun _ => Except.ok ⟨['s'], ⟨[], [], [], []⟩⟩) ⟨none, none, false⟩
        ("https://a".data),
       invalidUrlResult ("nota".data)] ∧
    (resultFor (fun _ => Except.error ⟨"nav failed", "NAVIGATION_ERROR", true⟩)
      ⟨none, none, false⟩ ("https://a".data)).error =
        some (retryErrMessage (.exhausted (some ⟨"nav failed", "NAVIGATION_ERROR", true⟩))) := by
  have h := c4_batch_per_url (fun _ => Except.ok ⟨['s'], ⟨[], [], [], []⟩⟩)
    (fun _ => Except.ok ['c']) ⟨none, none, false⟩ ["https://a".data, "nota".data]
  have hinv : isValidUrl ("nota".data) = false := by decide
  have hbad := c4_batch_per_url
    (fun _ => Except.error ⟨"nav failed", "NAVIGATION_ERROR", true⟩)
    (fun _ => Except.ok ['c']) ⟨none, none, false⟩ ["https://a".data]
  refine ⟨hinv, h.2.2.1 _ hinv, h.2.2.2.1 _, ?_, ?_⟩
  · rw [h.1]
    rw [List.map_cons, List.map_cons, List.map_nil, h.2.2.1 _ hinv]
  · exact hbad.2.2.2.2 ("https://a".data) _ (by decide) rfl

/-- C8: in a batch run the comparative-summary call is issued if and only
if the run requested comparative analysis and at least 2 results have no
error; every comparative call is over exactly the error-free results; and
the per-URL results are returned whatever the comparative call does — its
failure only leaves the comparative text absent. -/
theorem c8_comparative_iff (env : UrlOracle) (compEnv : CompOracle)
    (opts : SummaryOptions) (urls : List Str) :
    ((∃ args, BatchEv.comp args ∈ (summarizeBatchSt env compEnv opts urls).trace) ↔
      (opts.comparative = true ∧
        2 ≤ (((summarizeBatchSt env compEnv opts urls).results.filter
          (fun r => r.error.isNone)).length))) ∧
    (∀ args, BatchEv.comp args ∈ (summarizeBatchSt env compEnv opts urls).trace →
      args = (summarizeBatchSt env compEnv opts urls).results.filter
        (fun r => r.error.isNone)) ∧
    ((summarizeBatchSt env compEnv opts urls).results =
      urls.map (resultFor env opts)) ∧
    (∀ e, opts.comparative = true →
      2 ≤ (((summarizeBatchSt env compEnv opts urls).results.filter
        (fun r => r.error.isNone)).length) →
      constRes (compOutcome compEnv ((summarizeBatchSt env compEnv opts urls).results.filter
        (fun r => r.error.isNone))) = Except.error e →
      (summarizeBatchSt env compEnv opts urls).comparative = none ∧
      (summarizeBatchSt env compEnv opts urls).results =
        urls.map (resultFor env opts)) := by
  rw [summarizeBatchSt_char]
  dsimp only
  have hnocomp : ∀ args, BatchEv.comp args ∉ urls.flatMap (navTraceFor env opts) := by
    intro args hmem
    obtain ⟨v, _, hv⟩ := List.mem_flatMap.mp hmem
    unfold navTraceFor at hv
    split at hv
    · cases List.eq_of_mem_replicate hv
    · simp at hv
  by_cases hcond : opts.comparative = true ∧
      2 ≤ (((urls.map (resultFor env opts)).filter (fun r => r.error.isNone)).length)
  · rw [if_pos hcond, if_pos hcond]
    have hreps : 1 ≤ constReps (compOutcome compEnv
        ((urls.map (resultFor env opts)).filter (fun r => r.error.isNone)))
        (effectiveMaxRetries opts) := by
      unfold constReps
      have := effectiveMaxRetries_pos opts
      split
      · omega
      · split <;> omega
    refine ⟨?_, ?_, rfl, ?_⟩
    · constructor
      · intro _; exact hcond
      · intro _
        refine ⟨(urls.map (resultFor env opts)).filter (fun r => r.error.isNone),
          List.mem_append.mpr (Or.inr ?_)⟩
        exact List.mem_replicate.mpr ⟨by omega, rfl⟩
    · intro args hmem
      rcases List.mem_append.mp hmem with h1 | h2
      · exact absurd h1 (hnocomp args)
      · have := List.eq_of_mem_replicate h2
        cases this
        rfl
    · intro e _ _ he
      rw [he]
      exact ⟨rfl, rfl⟩
  · rw [if_neg hcond, if_neg hcond]
    refine ⟨?_, ?_, rfl, ?_⟩
    · constructor
      · rintro ⟨args, hmem⟩
        rw [List.append_nil] at hmem
        exact absurd hmem (hnocomp args)
      · intro h; exact absurd h hcond
    · intro args hmem
      rw [List.append_nil] at hmem
      exact absurd hmem (hnocomp args)
    · intro e h1 h2 _
      exact absurd ⟨h1, h2⟩ hcond

/-- Witness for C8: a two-URL batch with comparative analysis requested and
an always-succeeding collaborator issues the comparative call and returns
its text. -/
theorem c8_comparative_iff_witness :
    (∃ args, BatchEv.comp args ∈
      (summarizeBatchSt (fun _ => Except.ok ⟨['s'], ⟨[], [], [], []⟩⟩)
        (fun _ => Except.ok ['c']) ⟨none, none, true⟩
        ["https://a".data, "https://b".data]).trace) ∧
    (summarizeBatchSt (fun _ => Except.ok ⟨['s'], ⟨[], [], [], []⟩⟩)
        (fun _ => Except.ok ['c']) ⟨none, none, true⟩
        ["https://a".data, "https://b".data]).comparative = some ['c'] := by
  have h := c8_comparative_iff (fun _ => Except.ok ⟨['s'], ⟨[], [], [], []⟩⟩)
    (fun _ => Except.ok ['c']) ⟨none, none, true⟩ ["https://a".data, "https://b".data]
  exact ⟨h.1.mpr ⟨rfl, by decide⟩, by decide⟩

/-- C9: in the rate-limiter model, within any half-open window of
`windowMs` milliseconds at most `maxRequests` of the queued operations
begin; start times are FIFO-monotone and every queued operation receives a
start time; and with `(2, 1000)` exactly 2 of 5 operations submitted at
time 0 begin before 1000 ms elapse. -/
theorem c9_rate_limiter_window (maxRequests windowMs t n : Nat)
    (hm : 0 < maxRequests) (hw : 0 < windowMs) :
    ((Finset.range n).filter (fun i =>
      t ≤ rateLimiterStart maxRequests windowMs i ∧
      rateLimiterStart maxRequests windowMs i < t + windowMs)).card ≤ maxRequests ∧
    (∀ i j, i ≤ j →
      rateLimiterStart maxRequests windowMs i ≤ rateLimiterStart maxRequests windowMs j) ∧
    ((Finset.range 5).filter (fun i => rateLimiterStart 2 1000 i < 1000)).card = 2 := by
  refine ⟨?_, ?_, by decide⟩
  · set F := (Finset.range n).filter (fun i =>
      t ≤ rateLimiterStart maxRequests windowMs i ∧
      rateLimiterStart maxRequests windowMs i < t + windowMs) with hF
    by_cases hne : F.Nonempty
    · obtain ⟨i0, hi0⟩ := hne
      have hkey : ∀ i ∈ F, i / maxRequests = i0 / maxRequests := by
        intro i hi
        rw [hF, Finset.mem_filter] at hi hi0
        obtain ⟨_, hti, hti2⟩ := hi
        obtain ⟨_, ht0, ht02⟩ := hi0
        unfold rateLimiterStart at hti hti2 ht0 ht02
        rcases Nat.lt_trichotomy (i / maxRequests) (i0 / maxRequests) with h | h | h
        · exfalso
          have h2 : (i / maxRequests + 1) * windowMs ≤ (i0 / maxRequests) * windowMs :=
            Nat.mul_le_mul_right _ h
          rw [Nat.add_mul, Nat.one_mul] at h2
          omega
        · exact h
        · exfalso
          have h2 : (i0 / maxRequests + 1) * windowMs ≤ (i / maxRequests) * windowMs :=
            Nat.mul_le_mul_right _ h
          rw [Nat.add_mul, Nat.one_mul] at h2
          omega
      have hsub : F ⊆ Finset.Ico (i0 / maxRequests * maxRequests)
          (i0 / maxRequests * maxRequests + maxRequests) := by
        intro i hi
        have hq := hkey i hi
        rw [Finset.mem_Ico]
        constructor
        · rw [← hq]
          exact Nat.div_mul_le_self i maxRequests
        · have h1 : i / maxRequests < i0 / maxRequests + 1 := by omega
          have h2 : i < (i0 / maxRequests + 1) * maxRequests :=
            (Nat.div_lt_iff_lt_mul hm).mp h1
          rw [Nat.add_mul, Nat.one_mul] at h2
          omega
      have hcard := Finset.card_le_card hsub
      rw [Nat.card_Ico] at hcard
      omega
    · rw [Finset.not_nonempty_iff_eq_empty] at hne
      rw [hne]
      simp
  · intro i j hij
    unfold rateLimiterStart
    exact Nat.mul_le_mul_right _ (Nat.div_le_div_right hij)

/-- Witness for C9 with the source's configuration `(2, 1000)`: the window
starting at 0 admits at most 2 of 5 operations, starts are FIFO-monotone,
and exactly 2 of 5 start before 1000 ms. -/
theorem c9_rate_limiter_window_witness :
    ((Finset.range 5).filter (fun i =>
      0 ≤ rateLimiterStart 2 1000 i ∧
      rateLimiterStart 2 1000 i < 0 + 1000)).card ≤ 2 ∧
    rateLimiterStart 2 1000 1 ≤ rateLimiterStart 2 1000 3 ∧
    ((Finset.range 5).filter (fun i => rateLimiterStart 2 1000 i < 1000)).card = 2 := by
  have h := c9_rate_limiter_window 2 1000 0 5 (by decide) (by decide)
  exact ⟨h.1, h.2.1 1 3 (by decide), h.2.2⟩
